import Mathlib

/-!
# Verification of the sahayak-word-addin analysis backend

Shallow embedding, in Lean 4, of the core logic of the repository:

* `lib/llmService.js` — response reconciliation: `validateAndProcessResults`
  (offset-form and paragraph-form span validation), `fuzzyMatch`,
  `levenshteinDistance`, and the JSON extraction / error wrapping of
  `analyzeDocument`;
* `lib/rateLimit.js` — the in-memory sliding-window rate limiter
  (`rateLimit`, `cleanupOldEntries`, `rateLimitAdvanced`);
* `lib/utils.js` — `validateRequest`;
* `api/v1/analyze.js` — the HTTP status mapping of the analyze handler.

Strings are modelled as `List Char`, JavaScript numbers used as integers as
`Int` (timestamps, indices) or `ℕ` (lengths, counts), and floating point
similarity scores as `ℚ` (for the quantities involved — ratios of small
naturals against the 0.8 threshold — rational and double arithmetic order
the comparisons identically).
-/

set_option maxHeartbeats 1000000

namespace Sahayak

/-! ## Specification-side classic edit distance

The spec describes the matcher's `editDistance` as the classic unit-cost
single-character insertion/deletion/substitution edit distance.  We take the
textbook recursive definition as the specification and later prove that the
source's dynamic program (`levenshteinDistance` below) computes it. -/

/-- Classic unit-cost Levenshtein edit distance between two character lists:
insertion, deletion and substitution each cost 1. -/
def editDist : List Char → List Char → ℕ
  | [], ys => ys.length
  | _ :: xs, [] => xs.length + 1
  | x :: xs, y :: ys =>
      min (editDist xs (y :: ys) + 1)
        (min (editDist (x :: xs) ys + 1)
          (editDist xs ys + (if x = y then 0 else 1)))
termination_by xs ys => xs.length + ys.length

theorem editDist_nil_left (ys : List Char) : editDist [] ys = ys.length := by
  simp [editDist]

theorem editDist_nil_right (xs : List Char) : editDist xs [] = xs.length := by
  cases xs <;> simp [editDist]

theorem editDist_cons_cons (x : Char) (xs : List Char) (y : Char) (ys : List Char) :
    editDist (x :: xs) (y :: ys) =
      min (editDist xs (y :: ys) + 1)
        (min (editDist (x :: xs) ys + 1)
          (editDist xs ys + (if x = y then 0 else 1))) := by
  simp [editDist]

/-- Inserting a character on the right argument raises the distance by at most 1. -/
theorem editDist_cons_right_le (xs ys : List Char) (y : Char) :
    editDist xs (y :: ys) ≤ editDist xs ys + 1 := by
  cases xs with
  | nil => simp [editDist_nil_left]
  | cons x xs =>
      rw [editDist_cons_cons]
      have h := min_le_left (editDist (x :: xs) ys + 1)
        (editDist xs ys + (if x = y then 0 else 1))
      omega

/-- Inserting a character on the left argument raises the distance by at most 1. -/
theorem editDist_cons_left_le (xs ys : List Char) (x : Char) :
    editDist (x :: xs) ys ≤ editDist xs ys + 1 := by
  cases ys with
  | nil => simp [editDist_nil_right]
  | cons y ys =>
      rw [editDist_cons_cons]
      omega

/-- Removing the head of the right argument lowers the distance by at most 1. -/
theorem le_editDist_cons_right (xs ys : List Char) (y : Char) :
    editDist xs ys ≤ editDist xs (y :: ys) + 1 := by
  induction xs generalizing ys y with
  | nil => simp [editDist_nil_left]; omega
  | cons x xs ih =>
      rw [editDist_cons_cons x xs y ys]
      have h1 : editDist (x :: xs) ys ≤ editDist xs ys + 1 :=
        editDist_cons_left_le xs ys x
      have h2 : editDist xs ys ≤ editDist xs (y :: ys) + 1 := ih ys y
      split <;> omega

/-- Removing the head of the left argument lowers the distance by at most 1. -/
theorem le_editDist_cons_left (xs ys : List Char) (x : Char) :
    editDist xs ys ≤ editDist (x :: xs) ys + 1 := by
  induction ys generalizing xs x with
  | nil => simp [editDist_nil_right]; omega
  | cons y ys ih =>
      rw [editDist_cons_cons x xs y ys]
      have h1 : editDist xs (y :: ys) ≤ editDist xs ys + 1 :=
        editDist_cons_right_le xs ys y
      have h2 : editDist xs ys ≤ editDist xs ys + 1 := by omega
      have h3 : editDist xs ys ≤ editDist (x :: xs) ys + 1 := ih xs x
      split <;> omega

/-- When the two head characters agree, the distance is the distance of the
tails (the source DP's shortcut case). -/
theorem editDist_cons_cons_eq (x y : Char) (xs ys : List Char) (h : x = y) :
    editDist (x :: xs) (y :: ys) = editDist xs ys := by
  rw [editDist_cons_cons, if_pos h]
  have h1 := le_editDist_cons_right xs ys y
  have h2 := le_editDist_cons_left xs ys x
  omega

theorem editDist_symm (xs ys : List Char) : editDist xs ys = editDist ys xs := by
  induction xs generalizing ys with
  | nil => simp [editDist_nil_left, editDist_nil_right]
  | cons x xs ih =>
      induction ys with
      | nil => simp [editDist_nil_left, editDist_nil_right]
      | cons y ys ih2 =>
          rw [editDist_cons_cons x xs y ys, editDist_cons_cons y ys x xs]
          rw [ih (y :: ys), ih2, ih ys]
          have hxy : (if x = y then (0 : ℕ) else 1) = (if y = x then 0 else 1) := by
            rcases eq_or_ne x y with h | h
            · simp [h]
            · rw [if_neg h, if_neg (Ne.symm h)]
          rw [hxy]
          omega

theorem editDist_self (xs : List Char) : editDist xs xs = 0 := by
  induction xs with
  | nil => simp [editDist_nil_left]
  | cons x xs ih => rw [editDist_cons_cons_eq x x xs xs rfl]; exact ih

theorem editDist_le_max (xs ys : List Char) :
    editDist xs ys ≤ max xs.length ys.length := by
  induction xs generalizing ys with
  | nil => simp [editDist_nil_left]
  | cons x xs ih =>
      cases ys with
      | nil => simp [editDist_nil_right]
      | cons y ys =>
          by_cases h : x = y
          · rw [editDist_cons_cons_eq x y xs ys h]
            have := ih ys
            simp only [List.length_cons]
            omega
          · rw [editDist_cons_cons, if_neg h]
            have h3 := ih ys
            simp only [List.length_cons]
            omega

/-- The mirror (append) form of the defining recurrence: the classic edit
distance also satisfies the Wagner–Fischer recurrence on the *last*
characters.  This is what lets us read the source's prefix-indexed DP matrix
as classic edit distances. -/
theorem editDist_append_singleton (x y : Char) :
    ∀ xs ys : List Char, editDist (xs ++ [x]) (ys ++ [y]) =
      min (editDist xs (ys ++ [y]) + 1)
        (min (editDist (xs ++ [x]) ys + 1)
          (editDist xs ys + (if x = y then 0 else 1))) := by
  intro xs
  induction xs with
  | nil =>
      intro ys
      induction ys with
      | nil => simp [editDist]
      | cons z zs ih =>
          simp only [List.nil_append, List.cons_append] at ih ⊢
          rw [editDist_cons_cons x [] z (zs ++ [y]), ih]
          rw [editDist_cons_cons x [] z zs]
          simp only [editDist_nil_left, List.length_append, List.length_cons,
            List.length_nil]
          split <;> omega
  | cons a as ih =>
      intro ys
      induction ys with
      | nil =>
          simp only [List.nil_append, List.cons_append] at ih ⊢
          have ihnil := ih []
          simp only [List.nil_append] at ihnil
          rw [editDist_cons_cons a (as ++ [x]) y [], ihnil]
          rw [editDist_cons_cons a as y []]
          simp only [editDist_nil_right, editDist_nil_left,
            List.length_append, List.length_cons, List.length_nil]
          split <;> split <;> omega
      | cons z zs ih2 =>
          simp only [List.cons_append] at ih ih2 ⊢
          rw [editDist_cons_cons a (as ++ [x]) z (zs ++ [y])]
          have ihz : editDist (as ++ [x]) (z :: (zs ++ [y])) =
              min (editDist as (z :: (zs ++ [y])) + 1)
                (min (editDist (as ++ [x]) (z :: zs) + 1)
                  (editDist as (z :: zs) + (if x = y then 0 else 1))) := by
            have := ih (z :: zs)
            simpa only [List.cons_append] using this
          rw [ihz, ih2, ih zs]
          rw [editDist_cons_cons a as z (zs ++ [y]),
            editDist_cons_cons a (as ++ [x]) z zs,
            editDist_cons_cons a as z zs]
          generalize (if a = z then (0 : ℕ) else 1) = c1
          generalize (if x = y then (0 : ℕ) else 1) = c2
          simp only [← min_add_add_right]
          ac_rfl

/-- Edit distance is invariant under reversing both strings. -/
theorem editDist_reverse (xs ys : List Char) :
    editDist xs.reverse ys.reverse = editDist xs ys := by
  suffices H : ∀ n (xs ys : List Char), xs.length + ys.length = n →
      editDist xs.reverse ys.reverse = editDist xs ys from H _ xs ys rfl
  intro n
  induction n using Nat.strong_induction_on with
  | _ n ih =>
    intro xs ys hlen
    match xs, ys with
    | [], ys => simp [editDist_nil_left]
    | x :: xs, [] => simp [editDist_nil_right]
    | x :: xs, y :: ys =>
      simp only [List.length_cons] at hlen
      have h1 : editDist xs.reverse (y :: ys).reverse = editDist xs (y :: ys) :=
        ih (xs.length + (y :: ys).length) (by simp; omega) xs (y :: ys) rfl
      have h2 : editDist (x :: xs).reverse ys.reverse = editDist (x :: xs) ys :=
        ih ((x :: xs).length + ys.length) (by simp; omega) (x :: xs) ys rfl
      have h3 : editDist xs.reverse ys.reverse = editDist xs ys :=
        ih (xs.length + ys.length) (by omega) xs ys rfl
      rw [List.reverse_cons, List.reverse_cons, editDist_append_singleton x y]
      rw [← List.reverse_cons y ys, ← List.reverse_cons x xs]
      rw [h1, h2, h3, editDist_cons_cons]

/-! ## Source-side dynamic program (`levenshteinDistance`, llmService.js)

The source builds the full Wagner–Fischer matrix row by row:
`matrix[i][j]` for `i = 0..str2.length`, `j = 0..str1.length`, with
`matrix[0][j] = j`, `matrix[i][0] = i`, and
`matrix[i][j] = matrix[i-1][j-1]` when `str2[i-1] == str1[j-1]`, else
`1 + min(matrix[i-1][j-1], matrix[i][j-1], matrix[i-1][j])`.
We embed each row as a `List ℕ`. -/

/-- Inner loop of `levenshteinDistance`: computes the entries of row `i`
for columns `j ≥ 1`, walking `str1`.  `pDiag :: pRest` is the suffix of row
`i-1` starting at column `j-1`; `left` is entry `matrix[i][j-1]`. -/
def levNextRow (c2 : Char) : List Char → List ℕ → ℕ → List ℕ
  | c1 :: rest1, pDiag :: pRest, left =>
      let v := if c2 = c1 then pDiag
               else min (pDiag + 1) (min (left + 1) (pRest.headD 0 + 1))
      v :: levNextRow c2 rest1 pRest v
  | _, _, _ => []

/-- Outer loop of `levenshteinDistance`: one iteration per character of
`str2`; `prev` is the finished row `i`, the next row starts with `i + 1`. -/
def levRows (str1 : List Char) : List Char → List ℕ → ℕ → List ℕ
  | [], prev, _ => prev
  | c2 :: rest2, prev, i =>
      levRows str1 rest2 ((i + 1) :: levNextRow c2 str1 prev (i + 1)) (i + 1)

/-- `levenshteinDistance(str1, str2)` from the source: runs the dynamic
program and returns `matrix[str2.length][str1.length]` (the last entry of
the last row). -/
def levenshteinDistance (str1 str2 : List Char) : ℕ :=
  (levRows str1 str2 (List.range (str1.length + 1)) 0).getLastD 0

/-- The reversed prefixes of `l`, each extended onto `acc`:
`[acc, l₀ :: acc, l₁ :: l₀ :: acc, …]`. -/
def revPrefixes (acc : List Char) : List Char → List (List Char)
  | [] => [acc]
  | c :: cs => acc :: revPrefixes (c :: acc) cs

theorem revPrefixes_cons_head (acc : List Char) (l : List Char) :
    revPrefixes acc l = acc :: (revPrefixes acc l).tail := by
  cases l <;> simp [revPrefixes]

theorem revPrefixes_map_headD (f : List Char → ℕ) (acc : List Char) (l : List Char) :
    (((revPrefixes acc l).map f).headD 0) = f acc := by
  cases l <;> simp [revPrefixes]

theorem revPrefixes_map_getLastD (f : List Char → ℕ) :
    ∀ (l acc : List Char) (d : ℕ),
      ((revPrefixes acc l).map f).getLastD d = f (l.reverse ++ acc)
  | [], acc, d => by simp [revPrefixes]
  | c :: cs, acc, d => by
      simp only [revPrefixes, List.map_cons, List.getLastD_cons]
      rw [revPrefixes_map_getLastD f cs (c :: acc)]
      simp

theorem revPrefixes_map_length (acc : List Char) :
    ∀ l : List Char, (revPrefixes acc l).map List.length =
      List.range' acc.length (l.length + 1)
  | [] => by simp [revPrefixes, List.range']
  | c :: cs => by
      simp only [revPrefixes, List.map_cons]
      have h := revPrefixes_map_length (c :: acc) cs
      simp only [List.length_cons] at h ⊢
      rw [h]
      simp [List.range']

/-- Correctness of the inner loop: if the previous row holds the distances
from `rp2` to the reversed prefixes extending `rp1`, the new row holds the
distances from `c2 :: rp2` to those same reversed prefixes. -/
theorem levNextRow_spec (c2 : Char) (rp2 : List Char) :
    ∀ (rest1 rp1 : List Char),
      levNextRow c2 rest1 ((revPrefixes rp1 rest1).map (editDist rp2))
          (editDist (c2 :: rp2) rp1) =
        ((revPrefixes rp1 rest1).map (editDist (c2 :: rp2))).tail
  | [], rp1 => by simp [revPrefixes, levNextRow]
  | c1 :: rest1, rp1 => by
      simp only [revPrefixes, List.map_cons, List.tail_cons]
      rw [levNextRow]
      have hhead : (((revPrefixes (c1 :: rp1) rest1).map (editDist rp2)).headD 0) =
          editDist rp2 (c1 :: rp1) := revPrefixes_map_headD _ _ _
      have hv : (if c2 = c1 then editDist rp2 rp1
          else min (editDist rp2 rp1 + 1)
            (min (editDist (c2 :: rp2) rp1 + 1)
              (((revPrefixes (c1 :: rp1) rest1).map (editDist rp2)).headD 0 + 1))) =
          editDist (c2 :: rp2) (c1 :: rp1) := by
        rw [hhead]
        by_cases h : c2 = c1
        · rw [if_pos h, editDist_cons_cons_eq c2 c1 rp2 rp1 h]
        · rw [if_neg h, editDist_cons_cons, if_neg h]
          omega
      simp only [hv]
      rw [levNextRow_spec c2 rp2 rest1 (c1 :: rp1)]
      rw [revPrefixes_cons_head (c1 :: rp1) rest1]
      simp

/-- Correctness of the outer loop: starting from the row of distances from
`rp2`, processing `rest2` yields the row of distances from
`rest2.reverse ++ rp2`. -/
theorem levRows_spec (str1 : List Char) :
    ∀ (rest2 rp2 : List Char),
      levRows str1 rest2 ((revPrefixes [] str1).map (editDist rp2)) rp2.length =
        (revPrefixes [] str1).map (editDist (rest2.reverse ++ rp2))
  | [], rp2 => by simp [levRows]
  | c2 :: rest2, rp2 => by
      rw [levRows]
      have hrow : ((rp2.length + 1) :: levNextRow c2 str1
            ((revPrefixes [] str1).map (editDist rp2)) (rp2.length + 1)) =
          (revPrefixes [] str1).map (editDist (c2 :: rp2)) := by
        have hl : rp2.length + 1 = editDist (c2 :: rp2) [] := by
          rw [editDist_nil_right]; simp
        rw [hl, levNextRow_spec c2 rp2 str1 []]
        rw [revPrefixes_cons_head [] str1]
        simp
      rw [hrow]
      have := levRows_spec str1 rest2 (c2 :: rp2)
      simp only [List.length_cons] at this
      rw [this]
      simp

/-- The central refinement: the source's dynamic program computes the
classic edit distance. -/
theorem levenshteinDistance_eq_editDist (str1 str2 : List Char) :
    levenshteinDistance str1 str2 = editDist str1 str2 := by
  rw [levenshteinDistance]
  have hinit : List.range (str1.length + 1) =
      (revPrefixes [] str1).map (editDist []) := by
    have h1 : (revPrefixes [] str1).map (editDist []) =
        (revPrefixes [] str1).map List.length := by
      apply List.map_congr_left
      intro a _
      exact editDist_nil_left a
    rw [h1, revPrefixes_map_length]
    simp [List.range_eq_range']
  rw [hinit]
  have h0 : (0 : ℕ) = ([] : List Char).length := rfl
  rw [h0, levRows_spec str1 str2 [], revPrefixes_map_getLastD]
  simp only [List.append_nil]
  rw [editDist_reverse str2 str1, editDist_symm str2 str1]

/-! ## Approximate matching (`fuzzyMatch`, llmService.js) -/

/-- The similarity score computed inside `fuzzyMatch`:
`(longer.length - levenshteinDistance(longer, shorter)) / longer.length`,
with `longer`/`shorter` chosen by length (on a tie the source's ternary
makes `str2` the `longer`). -/
def fuzzySimilarity (str1 str2 : List Char) : ℚ :=
  let longer := if str1.length > str2.length then str1 else str2
  let shorter := if str1.length > str2.length then str2 else str1
  ((longer.length : ℚ) - (levenshteinDistance longer shorter : ℚ)) / (longer.length : ℚ)

/-- `fuzzyMatch(str1, str2, threshold)` from the source (the call sites use
the default `threshold = 0.8`): `false` when either string is empty; the
`longer.length === 0` early-`true` branch of the source is unreachable but
kept for fidelity. -/
def fuzzyMatch (str1 str2 : List Char) (threshold : ℚ) : Bool :=
  if str1.length = 0 ∨ str2.length = 0 then false
  else if (if str1.length > str2.length then str1 else str2).length = 0 then true
  else decide (threshold ≤ fuzzySimilarity str1 str2)

/-- Similarity as the specification words it:
`(max(len(a),len(b)) − editDistance(a,b)) / max(len(a),len(b))`, with the
classic `editDist`.  (Under ℚ's `x / 0 = 0` convention this is 0 when both
strings are empty; the spec's matcher is never called that way.) -/
def specSimilarity (a b : List Char) : ℚ :=
  ((max a.length b.length : ℕ) - (editDist a b : ℚ)) / ((max a.length b.length : ℕ) : ℚ)

theorem fuzzySimilarity_eq_spec (a b : List Char) :
    fuzzySimilarity a b = specSimilarity a b := by
  unfold fuzzySimilarity specSimilarity
  by_cases h : a.length > b.length
  · simp only [if_pos h]
    rw [levenshteinDistance_eq_editDist]
    rw [Nat.max_eq_left (Nat.le_of_lt h)]
  · simp only [if_neg h]
    rw [levenshteinDistance_eq_editDist, editDist_symm b a]
    rw [Nat.max_eq_right (Nat.le_of_not_lt h)]

theorem fuzzyMatch_eq_spec (a b : List Char) (t : ℚ) (ht : 0 < t) (ha : a ≠ []) :
    fuzzyMatch a b t = decide (t ≤ specSimilarity a b) := by
  unfold fuzzyMatch
  rcases b with _ | ⟨c, cs⟩
  · have hs : specSimilarity a [] = 0 := by
      unfold specSimilarity
      rw [editDist_nil_right]
      simp
    rw [hs]
    simp [decide_eq_false (not_le.mpr ht)]
  · have ha' : a.length ≠ 0 := fun h => ha (List.length_eq_zero.mp h)
    rw [if_neg (by
      rintro (h | h)
      · exact ha' h
      · simp at h)]
    have hlong : ¬((if a.length > (c :: cs).length then a else (c :: cs)).length = 0) := by
      split
      · exact ha'
      · simp
    rw [if_neg hlong, fuzzySimilarity_eq_spec]

/-! ## Offset-form span validation (`validateAndProcessResults`, llmService.js)

Only the fields the validation logic reads are modelled on issues
(`id`, `severity`, `location`, `autoFixable`); the remaining payload fields
(`category`, `title`, `description`, `context`, `expected`, `fix`, `rule`)
are carried through untouched by the source and are omitted. -/

structure OffsetLocation where
  startIndex : Int
  endIndex : Int
  exactText : List Char
deriving Repr, DecidableEq

structure OffsetIssue where
  id : Option String
  severity : String
  location : OffsetLocation
  autoFixable : Option Bool
deriving Repr, DecidableEq

/-- JavaScript `String.prototype.substring(s, e)` as used by the validator,
which only calls it with `0 ≤ s < e ≤ len`. -/
def jsSubstring (cs : List Char) (s e : Int) : List Char :=
  (cs.take e.toNat).drop s.toNat

inductive OffsetOutcome
  /-- the issue is pushed unchanged -/
  | acceptedAsIs
  /-- the issue is pushed with `location.exactText` rewritten to `actual` -/
  | acceptedRewritten (actual : List Char)
  /-- skipped, counted in `validationStats.indexErrors` -/
  | rejectedBounds
  /-- skipped, counted in `validationStats.textMismatches` -/
  | rejectedText
deriving Repr, DecidableEq

/-- The per-issue step of `validateAndProcessResults` (offset form):
bounds check on `startIndex`/`endIndex`, exact text comparison, then the
fuzzy fallback at the default threshold 0.8. -/
def validateOffsetIssue (originalText : List Char) (issue : OffsetIssue) : OffsetOutcome :=
  if issue.location.startIndex < 0 ∨
      (originalText.length : Int) < issue.location.endIndex ∨
      issue.location.endIndex ≤ issue.location.startIndex then
    .rejectedBounds
  else
    let actualText := jsSubstring originalText issue.location.startIndex issue.location.endIndex
    if actualText = issue.location.exactText then .acceptedAsIs
    else if fuzzyMatch actualText issue.location.exactText (4/5) then
      .acceptedRewritten actualText
    else .rejectedText

theorem jsSubstring_ne_nil (cs : List Char) (s e : Int)
    (h0 : 0 ≤ s) (hlen : e ≤ (cs.length : Int)) (hse : s < e) :
    jsSubstring cs s e ≠ [] := by
  unfold jsSubstring
  intro h
  have h1 : ((cs.take e.toNat).drop s.toNat).length = 0 := by rw [h]; rfl
  rw [List.length_drop, List.length_take] at h1
  omega

/-- C1: offset-form findings are rejected on out-of-bounds or inverted
indices regardless of text; otherwise, with
`actual = fullText[startIndex:endIndex]`, they are accepted unchanged when
`actual` equals the quoted `exactText`, accepted with `exactText` rewritten
to `actual` when the spec's similarity `(max − editDist)/max` is at least
0.8, and rejected as a text mismatch when that similarity is below 0.8. -/
theorem offset_validation_matches_similarity_spec
    (originalText : List Char) (issue : OffsetIssue) :
    validateOffsetIssue originalText issue =
      if issue.location.startIndex < 0 ∨
          (originalText.length : Int) < issue.location.endIndex ∨
          issue.location.endIndex ≤ issue.location.startIndex then
        .rejectedBounds
      else
        let actual := jsSubstring originalText issue.location.startIndex issue.location.endIndex
        if actual = issue.location.exactText then .acceptedAsIs
        else if 4/5 ≤ specSimilarity actual issue.location.exactText then
          .acceptedRewritten actual
        else .rejectedText := by
  unfold validateOffsetIssue
  split
  · rfl
  · rename_i hb
    push_neg at hb
    obtain ⟨h0, hlen, hse⟩ := hb
    have hne : jsSubstring originalText issue.location.startIndex issue.location.endIndex ≠ [] :=
      jsSubstring_ne_nil _ _ _ h0 hlen hse
    simp only
    split
    · rfl
    · rw [fuzzyMatch_eq_spec _ _ _ (by norm_num) hne]
      by_cases hs : (4/5 : ℚ) ≤ specSimilarity
          (jsSubstring originalText issue.location.startIndex issue.location.endIndex)
          issue.location.exactText
      · simp [hs]
      · simp [hs]

/-- C7: the matcher's similarity is `(max(len a, len b) − editDist(a,b)) /
max(len a, len b)` with the classic unit-cost edit distance over the full
strings; a single empty side scores 0 and never matches (no division by
zero); the score is symmetric; and a non-empty string scores 1.0 against
itself. -/
theorem similarity_classic_formula :
    (∀ a b : List Char, a ≠ [] → b ≠ [] → fuzzySimilarity a b = specSimilarity a b)
    ∧ (∀ a b : List Char, (a = [] ∧ b ≠ []) ∨ (a ≠ [] ∧ b = []) →
        specSimilarity a b = 0 ∧ ∀ t : ℚ, 0 < t → fuzzyMatch a b t = false)
    ∧ (∀ a b : List Char, fuzzySimilarity a b = fuzzySimilarity b a)
    ∧ (∀ a : List Char, a ≠ [] → fuzzySimilarity a a = 1) := by
  have hspec0 : ∀ a : List Char, specSimilarity a [] = 0 := by
    intro a
    unfold specSimilarity
    rw [editDist_nil_right]
    simp
  have hspec0' : ∀ b : List Char, specSimilarity [] b = 0 := by
    intro b
    unfold specSimilarity
    rw [editDist_nil_left]
    simp
  refine ⟨fun a b _ _ => fuzzySimilarity_eq_spec a b, ?_, ?_, ?_⟩
  · rintro a b (⟨ha, hb⟩ | ⟨ha, hb⟩)
    · subst ha
      exact ⟨hspec0' b, fun t ht => by simp [fuzzyMatch]⟩
    · subst hb
      exact ⟨hspec0 a, fun t ht => by simp [fuzzyMatch]⟩
  · intro a b
    rw [fuzzySimilarity_eq_spec, fuzzySimilarity_eq_spec]
    unfold specSimilarity
    rw [editDist_symm a b, Nat.max_comm]
  · intro a ha
    have ha' : a.length ≠ 0 := fun h => ha (List.length_eq_zero.mp h)
    rw [fuzzySimilarity_eq_spec]
    unfold specSimilarity
    rw [editDist_self, Nat.max_self]
    rw [Nat.cast_zero, sub_zero]
    exact div_self (by exact_mod_cast ha')

/-- Witness for the similarity properties at concrete strings. -/
theorem similarity_classic_formula_witness :
    fuzzySimilarity ("abcd".toList) ("abcd".toList) = 1 ∧
      specSimilarity ("ab".toList) [] = 0 ∧
      fuzzyMatch ("ab".toList) [] (4/5) = false ∧
      fuzzySimilarity ("abcd".toList) ("abcx".toList) =
        specSimilarity ("abcd".toList) ("abcx".toList) := by
  have h1 := similarity_classic_formula.2.2.2 ("abcd".toList) (by decide)
  have h2 := similarity_classic_formula.2.1 ("ab".toList) []
    (Or.inr ⟨by decide, rfl⟩)
  have h3 := similarity_classic_formula.1 ("abcd".toList) ("abcx".toList)
    (by decide) (by decide)
  exact ⟨h1, h2.1, h2.2 (4/5) (by norm_num), h3⟩

/-! ## Result aggregation (`validateAndProcessResults`, llmService.js) -/

/-- The model's self-reported summary block (advisory only). -/
structure ModelSummary where
  totalIssues : Int
  critical : Int
  warnings : Int
  suggestions : Int
  documentLength : Int
deriving Repr, DecidableEq

/-- Parsed model output before validation. -/
structure ProvisionalResult where
  summary : Option ModelSummary
  issues : Option (List OffsetIssue)
deriving Repr, DecidableEq

/-- The recomputed summary block of the returned result. -/
structure ResultSummary where
  totalIssues : ℕ
  critical : ℕ
  warnings : ℕ
  suggestions : ℕ
  documentLength : ℕ
deriving Repr, DecidableEq

structure ValidationStats where
  original : ℕ
  validated : ℕ
  indexErrors : ℕ
  textMismatches : ℕ
deriving Repr, DecidableEq

structure ProcessedResult where
  summary : ResultSummary
  issues : List OffsetIssue
  validationStats : ValidationStats
deriving Repr, DecidableEq

/-- The `for (const issue of analysisResult.issues)` loop: builds the
surviving list and the two rejection counters.  `idGen k` abstracts the
source's fresh-id expression `issue_${Date.now()}_${random}` for the `k`-th
processed issue. -/
def validationLoop (idGen : ℕ → String) (originalText : List Char) :
    ℕ → List OffsetIssue → List OffsetIssue × ℕ × ℕ
  | _, [] => ([], 0, 0)
  | k, issue :: rest =>
      match validateOffsetIssue originalText issue with
      | .rejectedBounds =>
          let r := validationLoop idGen originalText (k + 1) rest
          (r.1, r.2.1 + 1, r.2.2)
      | .rejectedText =>
          let r := validationLoop idGen originalText (k + 1) rest
          (r.1, r.2.1, r.2.2 + 1)
      | .acceptedAsIs =>
          let issue1 : OffsetIssue :=
            { issue with id := some (issue.id.getD (idGen k)),
                         autoFixable := some (issue.autoFixable.getD false) }
          let r := validationLoop idGen originalText (k + 1) rest
          (issue1 :: r.1, r.2.1, r.2.2)
      | .acceptedRewritten actual =>
          let issue1 : OffsetIssue :=
            { issue with location := { issue.location with exactText := actual },
                         id := some (issue.id.getD (idGen k)),
                         autoFixable := some (issue.autoFixable.getD false) }
          let r := validationLoop idGen originalText (k + 1) rest
          (issue1 :: r.1, r.2.1, r.2.2)

/-- `validateAndProcessResults(analysisResult, originalText)` from the
source: validates every reported issue and recomputes the summary from the
survivors (the model's own `summary` block, when present, is never read —
the source only installs a default into it when absent and then overwrites
the returned `summary` wholesale). -/
def validateAndProcessResults (idGen : ℕ → String) (analysisResult : ProvisionalResult)
    (originalText : List Char) : ProcessedResult :=
  let issues := analysisResult.issues.getD []
  let r := validationLoop idGen originalText 0 issues
  let validatedIssues := r.1
  { summary := {
      totalIssues := validatedIssues.length
      critical := (validatedIssues.filter (fun i => i.severity = "Critical")).length
      warnings := (validatedIssues.filter (fun i => i.severity = "Warning")).length
      suggestions := (validatedIssues.filter (fun i => i.severity = "Suggestion")).length
      documentLength := originalText.length }
    issues := validatedIssues
    validationStats := {
      original := issues.length
      validated := validatedIssues.length
      indexErrors := r.2.1
      textMismatches := r.2.2 } }

/-- Three pairwise-exclusive filters never count an element twice. -/
theorem three_filter_length_le (l : List OffsetIssue) (p q s : OffsetIssue → Prop)
    [DecidablePred p] [DecidablePred q] [DecidablePred s]
    (hpq : ∀ i, p i → q i → False) (hps : ∀ i, p i → s i → False)
    (hqs : ∀ i, q i → s i → False) :
    (l.filter (fun i => decide (p i))).length + (l.filter (fun i => decide (q i))).length +
      (l.filter (fun i => decide (s i))).length ≤ l.length := by
  induction l with
  | nil => simp
  | cons a l ih =>
      simp only [List.filter_cons, List.length_cons]
      by_cases hp : p a
      · have hq : ¬q a := fun h => hpq a hp h
        have hs : ¬s a := fun h => hps a hp h
        simp [hp, hq, hs]
        omega
      · by_cases hq : q a
        · have hs : ¬s a := fun h => hqs a hq h
          simp [hp, hq, hs]
          omega
        · by_cases hs : s a
          · simp [hp, hq, hs]
            omega
          · simp [hp, hq, hs]
            omega

/-- C8: the returned summary is recomputed from the surviving issues:
`totalIssues` is their number, the three severity sub-counts are the exact
counts of survivors with severity `Critical` / `Warning` / `Suggestion`
(any other severity is counted in `totalIssues` but in no sub-count, so the
sub-counts sum to at most `totalIssues`), `documentLength` is the length of
the analyzed text, and none of these values depend on the model's
self-reported summary block. -/
theorem summary_recomputed_from_survivors (idGen : ℕ → String)
    (analysisResult : ProvisionalResult) (originalText : List Char) :
    (validateAndProcessResults idGen analysisResult originalText).summary.totalIssues =
        (validateAndProcessResults idGen analysisResult originalText).issues.length
    ∧ (validateAndProcessResults idGen analysisResult originalText).summary.critical =
        ((validateAndProcessResults idGen analysisResult originalText).issues.filter
          (fun i => i.severity = "Critical")).length
    ∧ (validateAndProcessResults idGen analysisResult originalText).summary.warnings =
        ((validateAndProcessResults idGen analysisResult originalText).issues.filter
          (fun i => i.severity = "Warning")).length
    ∧ (validateAndProcessResults idGen analysisResult originalText).summary.suggestions =
        ((validateAndProcessResults idGen analysisResult originalText).issues.filter
          (fun i => i.severity = "Suggestion")).length
    ∧ (validateAndProcessResults idGen analysisResult originalText).summary.critical +
        (validateAndProcessResults idGen analysisResult originalText).summary.warnings +
        (validateAndProcessResults idGen analysisResult originalText).summary.suggestions ≤
        (validateAndProcessResults idGen analysisResult originalText).summary.totalIssues
    ∧ (validateAndProcessResults idGen analysisResult originalText).summary.documentLength =
        originalText.length
    ∧ ∀ reported : Option ModelSummary,
        (validateAndProcessResults idGen
            { analysisResult with summary := reported } originalText).summary =
          (validateAndProcessResults idGen analysisResult originalText).summary := by
  refine ⟨rfl, rfl, rfl, rfl, ?_, rfl, fun reported => rfl⟩
  have h := three_filter_length_le
    ((validationLoop idGen originalText 0 (analysisResult.issues.getD [])).1)
    (fun i => i.severity = "Critical") (fun i => i.severity = "Warning")
    (fun i => i.severity = "Suggestion")
    (fun i h1 h2 => by
      have e1 : i.severity = "Critical" := h1
      have e2 : i.severity = "Warning" := h2
      rw [e1] at e2
      exact absurd e2 (by decide))
    (fun i h1 h2 => by
      have e1 : i.severity = "Critical" := h1
      have e2 : i.severity = "Suggestion" := h2
      rw [e1] at e2
      exact absurd e2 (by decide))
    (fun i h1 h2 => by
      have e1 : i.severity = "Warning" := h1
      have e2 : i.severity = "Suggestion" := h2
      rw [e1] at e2
      exact absurd e2 (by decide))
  simpa [validateAndProcessResults] using h

/-! ## Paragraph-form span validation (`validateAndProcessResults` of the
structured service variant) -/

structure ParaLocation where
  paragraphIndex : Option Int
  searchableText : Option (List Char)
deriving Repr, DecidableEq

structure ParaIssue where
  id : Option String
  severity : String
  location : Option ParaLocation
  autoFixable : Option Bool
deriving Repr, DecidableEq

inductive ParaOutcome
  /-- the issue is pushed unchanged -/
  | accepted
  /-- skipped, counted in `validationStats.invalidParagraphIndex` -/
  | rejectedIndex
  /-- skipped, counted in `validationStats.missingSearchableText` -/
  | rejectedMissingText
deriving Repr, DecidableEq

/-- Per-issue validation of the paragraph-form service: reject when
`issue.location?.paragraphIndex` is `undefined`, negative, or at least the
number of paragraphs; reject when `issue.location?.searchableText` is
falsy (`undefined` or the empty string); otherwise accept.  (The paragraph
texts themselves are never consulted.) -/
def validateParaIssue (paragraphs : List (List Char)) (issue : ParaIssue) : ParaOutcome :=
  match issue.location.bind (fun l => l.paragraphIndex) with
  | none => .rejectedIndex
  | some i =>
      if i < 0 ∨ (paragraphs.length : Int) ≤ i then .rejectedIndex
      else
        match issue.location.bind (fun l => l.searchableText) with
        | none => .rejectedMissingText
        | some t => if t = [] then .rejectedMissingText else .accepted

/-- C2 counterexample: a paragraph-form finding whose `searchableText` does
not occur anywhere in the indexed paragraph's text is nevertheless
accepted — the validator performs no substring-containment check. -/
theorem para_validation_accepts_noncontained_text :
    validateParaIssue ["abc".toList]
        { id := some "i1", severity := "Warning",
          location := some { paragraphIndex := some 0,
                             searchableText := some "xyz".toList },
          autoFixable := none } = .accepted
    ∧ ¬ (("xyz".toList) <:+: ("abc".toList)) := by
  exact ⟨by decide, by decide⟩

/-- C2 (amended): a paragraph-form finding is rejected when
`paragraphIndex` is missing or out of range (counted as
`invalidParagraphIndex`) or when `searchableText` is absent or empty
(counted as `missingSearchableText`); it is accepted exactly when the index
is in range and `searchableText` is non-empty — literal containment of
`searchableText` in `paragraphs[paragraphIndex].text` is NOT checked. -/
theorem para_validation_presence_only (paragraphs : List (List Char)) (issue : ParaIssue) :
    validateParaIssue paragraphs issue = .accepted ↔
      (∃ i, issue.location.bind (fun l => l.paragraphIndex) = some i ∧
        0 ≤ i ∧ i < (paragraphs.length : Int)) ∧
      (∃ t, issue.location.bind (fun l => l.searchableText) = some t ∧ t ≠ []) := by
  constructor
  · intro h
    cases hidx : issue.location.bind (fun l => l.paragraphIndex) with
    | none =>
        simp only [validateParaIssue, hidx] at h
        exact absurd h (by decide)
    | some i =>
        simp only [validateParaIssue, hidx] at h
        by_cases hr : i < 0 ∨ (paragraphs.length : Int) ≤ i
        · rw [if_pos hr] at h
          exact absurd h (by decide)
        · rw [if_neg hr] at h
          push_neg at hr
          cases htxt : issue.location.bind (fun l => l.searchableText) with
          | none =>
              simp only [htxt] at h
              exact absurd h (by decide)
          | some t =>
              simp only [htxt] at h
              by_cases ht : t = []
              · rw [if_pos ht] at h
                exact absurd h (by decide)
              · exact ⟨⟨i, rfl, hr.1, hr.2⟩, ⟨t, rfl, ht⟩⟩
  · rintro ⟨⟨i, hi, h0, hlt⟩, ⟨t, htx, hne⟩⟩
    simp only [validateParaIssue, hi, htx]
    rw [if_neg (by omega), if_neg hne]

/-! ## Sliding-window rate limiter (`rateLimit` / `cleanupOldEntries` /
`rateLimitAdvanced`, rateLimit.js)

The store maps each key to its recorded request instants.  The stored
`resetTime` is only echoed back to callers and steers the eviction of
entries whose (already filtered) request list is empty; deleting such an
entry and lazily recreating it is indistinguishable from keeping it, so the
embedding models the store as the total map `String → List Int` with absent
keys mapped to `[]`.  Timestamps are `Int` millisecond epochs.  The
1%-probability cleanup (`Math.random() < 0.01`) is modelled by a
nondeterministic per-call `cleanup` flag. -/

structure RLEvent where
  key : String
  windowMs : Int
  max : ℕ
  now : Int
  cleanup : Bool
deriving Repr, DecidableEq

structure RLDecision where
  success : Bool
  limit : ℕ
  remaining : ℕ
  /-- `Math.ceil((oldestRequest + windowMs - now) / 1000)`; `none` models
  `Math.min()` of an empty list (JS `Infinity`), unreachable when `max > 0`;
  the success branch returns `retryAfter: 0`. -/
  retryAfter : Option Int
deriving Repr, DecidableEq

/-- The module-level `rateLimitStore`. -/
def RLStore : Type := String → List Int

def emptyStore : RLStore := fun _ => []

/-- `cleanupOldEntries(cutoffTime)`: refilter every key's request list
(the key-deletion part only removes entries whose list is already empty,
and so is invisible in this store model). -/
def cleanupOldEntries (cutoffTime : Int) (s : RLStore) : RLStore :=
  fun k => (s k).filter (fun t => decide (cutoffTime < t))

def updateStore (s : RLStore) (k : String) (v : List Int) : RLStore :=
  fun k2 => if k2 = k then v else s k2

/-- One call of `rateLimit(req, options)`: optional probabilistic cleanup,
filter the key's instants to the trailing window, reject with `retryAfter`
computed from the oldest retained instant when `max` or more remain,
otherwise record `now`. -/
def rateLimitStep (s : RLStore) (e : RLEvent) : RLStore × RLDecision :=
  let windowStart := e.now - e.windowMs
  let s1 := if e.cleanup then cleanupOldEntries windowStart s else s
  let reqs := (s1 e.key).filter (fun t => decide (windowStart < t))
  if e.max ≤ reqs.length then
    (updateStore s1 e.key reqs,
      { success := false, limit := e.max, remaining := 0,
        retryAfter := reqs.min?.map
          (fun oldest => ⌈((oldest + e.windowMs - e.now : ℚ)) / 1000⌉) })
  else
    (updateStore s1 e.key (reqs ++ [e.now]),
      { success := true, limit := e.max, remaining := e.max - (reqs.length + 1),
        retryAfter := some 0 })

/-- A sequence of admission checks against the shared store. -/
def runRateLimit : RLStore → List RLEvent → RLStore × List (RLEvent × RLDecision)
  | s, [] => (s, [])
  | s, e :: rest =>
      let r := rateLimitStep s e
      let rr := runRateLimit r.1 rest
      (rr.1, (e, r.2) :: rr.2)

/-- The instants at which `key` was admitted (`allowed = true`). -/
def admittedTimes (k : String) (results : List (RLEvent × RLDecision)) : List Int :=
  (results.filter (fun p => decide (p.1.key = k) && p.2.success)).map (fun p => p.1.now)

/-- How many admissions of `key` fall in the trailing window `(T − W, T]`. -/
def countAllowedInWindow (results : List (RLEvent × RLDecision)) (k : String)
    (W T : Int) : ℕ :=
  ((admittedTimes k results).filter
    (fun t => decide (T - W < t) && decide (t ≤ T))).length

/-- The per-endpoint tiers of `rateLimitAdvanced`. -/
def rateLimitAdvancedConfig (endpoint : String) : Int × ℕ :=
  if endpoint = "/api/v1/analyze" then (15 * 60 * 1000, 5)
  else if endpoint = "/api/v1/health" then (60 * 1000, 60)
  else (15 * 60 * 1000, 10)

/-- C3 counterexample: with the per-endpoint configurations actually in
use, an interleaved check for another key with a smaller `windowMs` that
triggers the probabilistic cleanup erases this key's recorded history
(`cleanupOldEntries` refilters *every* key with the *current call's*
cutoff), after which the key is admitted again inside its own window: key
`"a"` (windowMs 10, max 1) is admitted twice within one trailing window of
length 10, under a nondecreasing clock and a fixed per-key configuration. -/
theorem rate_limiter_window_overrun :
    countAllowedInWindow
        (runRateLimit emptyStore
          [{ key := "a", windowMs := 10, max := 1, now := 0, cleanup := false },
           { key := "b", windowMs := 2, max := 1, now := 5, cleanup := true },
           { key := "a", windowMs := 10, max := 1, now := 6, cleanup := false }]).2
        "a" 10 6 = 2
    ∧ 1 < 2
    ∧ List.Pairwise (fun e1 e2 => e1.now ≤ e2.now)
        [({ key := "a", windowMs := 10, max := 1, now := 0, cleanup := false } : RLEvent),
         { key := "b", windowMs := 2, max := 1, now := 5, cleanup := true },
         { key := "a", windowMs := 10, max := 1, now := 6, cleanup := false }]
    ∧ ∀ e ∈ [({ key := "a", windowMs := 10, max := 1, now := 0, cleanup := false } : RLEvent),
         { key := "b", windowMs := 2, max := 1, now := 5, cleanup := true },
         { key := "a", windowMs := 10, max := 1, now := 6, cleanup := false }],
        e.key = "a" → e.windowMs = 10 ∧ e.max = 1 := by
  refine ⟨by decide, by decide, by decide, by decide⟩

/-- Greedy admissibility: each instant was recorded only when fewer than
`m` already-recorded instants lay in its own trailing window. -/
inductive Admissible (W : Int) (m : ℕ) : List Int → Prop
  | nil : Admissible W m []
  | snoc (l : List Int) (t : Int) : Admissible W m l →
      (l.filter (fun u => decide (t - W < u))).length < m →
      Admissible W m (l ++ [t])

theorem length_filter_le_of_imp (l : List Int) (p q : Int → Bool)
    (h : ∀ a, p a = true → q a = true) :
    (l.filter p).length ≤ (l.filter q).length := by
  induction l with
  | nil => simp
  | cons a l ih =>
      rw [List.filter_cons, List.filter_cons]
      by_cases hp : p a = true
      · rw [if_pos hp, if_pos (h a hp)]
        simpa using ih
      · rw [if_neg hp]
        split
        · exact Nat.le_trans ih (by simp)
        · exact ih

/-- A greedily-admitted list has at most `m` members in any trailing
window of length `W`. -/
theorem admissible_window_bound (W : Int) (m : ℕ) (l : List Int)
    (h : Admissible W m l) (T : Int) :
    (l.filter (fun t => decide (T - W < t) && decide (t ≤ T))).length ≤ m := by
  induction h with
  | nil => simp
  | snoc l t hadm hlt ih =>
      rw [List.filter_append, List.length_append]
      have hsing : (List.filter (fun u => decide (T - W < u) && decide (u ≤ T)) [t]).length ≤ 1 := by
        rw [List.filter_cons]
        split <;> simp
      by_cases hT : (decide (T - W < t) && decide (t ≤ T)) = true
      · have hsub : (l.filter (fun u => decide (T - W < u) && decide (u ≤ T))).length ≤
            (l.filter (fun u => decide (t - W < u))).length := by
          apply length_filter_le_of_imp
          intro a ha
          simp only [Bool.and_eq_true, decide_eq_true_eq] at ha hT ⊢
          omega
        omega
      · have hzero : (List.filter (fun u => decide (T - W < u) && decide (u ≤ T)) [t]).length = 0 := by
          simp [List.filter_cons, hT]
        omega

theorem filter_lt_filter_lt (A : List Int) (c d : Int) (hcd : c ≤ d) :
    (A.filter (fun u => decide (c < u))).filter (fun u => decide (d < u)) =
      A.filter (fun u => decide (d < u)) := by
  induction A with
  | nil => rfl
  | cons a A ih =>
      by_cases h1 : c < a
      · by_cases h2 : d < a <;> simp [List.filter_cons, h1, h2, ih]
      · have h2 : ¬ d < a := by omega
        simp [List.filter_cons, h1, h2, ih]

theorem admittedTimes_cons (k : String) (p : RLEvent × RLDecision)
    (res : List (RLEvent × RLDecision)) :
    admittedTimes k (p :: res) =
      if decide (p.1.key = k) && p.2.success then p.1.now :: admittedTimes k res
      else admittedTimes k res := by
  unfold admittedTimes
  rw [List.filter_cons]
  split <;> simp_all


theorem pair_fst_apply (f : RLStore) (d : RLDecision) (k2 : String) :
    ((f, d) : RLStore × RLDecision).1 k2 = f k2 := rfl

theorem updateStore_apply (s : RLStore) (k2 : String) (v : List Int) (k3 : String) :
    updateStore s k2 v k3 = if k3 = k2 then v else s k3 := rfl

theorem runRateLimit_cons (s : RLStore) (e : RLEvent) (rest : List RLEvent) :
    (runRateLimit s (e :: rest)).2 =
      (e, (rateLimitStep s e).2) :: (runRateLimit (rateLimitStep s e).1 rest).2 := rfl

theorem rateLimitStep_fst_apply_ne (s : RLStore) (e : RLEvent) (k2 : String)
    (hne : k2 ≠ e.key) :
    (rateLimitStep s e).1 k2 =
      (if e.cleanup then cleanupOldEntries (e.now - e.windowMs) s else s) k2 := by
  simp only [rateLimitStep]
  split <;> split <;> simp [updateStore, hne]

/-- The run-time store invariant: under a single global `windowMs`, the
store holds, for our key, exactly the admitted instants above some cutoff
that never exceeds any upcoming window start, so every later check sees
every admitted instant still inside its window. -/
theorem runRateLimit_admissible (k : String) (W : Int) (m : ℕ) (hW : 0 < W) :
    ∀ (events : List RLEvent) (s : RLStore) (A : List Int) (c : Int),
      s k = A.filter (fun u => decide (c < u)) →
      (∀ e ∈ events, c ≤ e.now - W) →
      (∀ e ∈ events, e.windowMs = W) →
      (∀ e ∈ events, e.key = k → e.max = m) →
      List.Pairwise (fun e1 e2 => e1.now ≤ e2.now) events →
      Admissible W m A →
      Admissible W m (A ++ admittedTimes k (runRateLimit s events).2) := by
  intro events
  induction events with
  | nil =>
      intro s A c hs hc hw hm hp hA
      rw [show (runRateLimit s []).2 = [] from rfl,
        show admittedTimes k [] = [] from rfl, List.append_nil]
      exact hA
  | cons e rest ih =>
      intro s A c hs hc hw hm hp hA
      have hew : e.windowMs = W := hw e (List.mem_cons_self e rest)
      have hce : c ≤ e.now - W := hc e (List.mem_cons_self e rest)
      rw [List.pairwise_cons] at hp
      obtain ⟨hhead, hrest⟩ := hp
      obtain ⟨c2, hs1, hc2⟩ :
          ∃ c2, (if e.cleanup then cleanupOldEntries (e.now - e.windowMs) s else s) k =
              A.filter (fun u => decide (c2 < u)) ∧ c2 ≤ e.now - W := by
        by_cases hcl : e.cleanup
        · refine ⟨e.now - W, ?_, le_refl _⟩
          rw [if_pos hcl]
          unfold cleanupOldEntries
          rw [hew, hs, filter_lt_filter_lt A c (e.now - W) hce]
        · exact ⟨c, by rw [if_neg hcl]; exact hs, hce⟩
      rw [runRateLimit_cons, admittedTimes_cons]
      by_cases hk : e.key = k
      · -- this key is checked
        have hreqs : ((if e.cleanup then cleanupOldEntries (e.now - e.windowMs) s else s) e.key).filter
            (fun t => decide (e.now - e.windowMs < t)) =
            A.filter (fun u => decide (e.now - W < u)) := by
          rw [hk, hs1, hew, filter_lt_filter_lt A c2 (e.now - W) hc2]
        have hmaxe : e.max = m := hm e (List.mem_cons_self e rest) hk
        by_cases hover : e.max ≤ (A.filter (fun u => decide (e.now - W < u))).length
        · -- rejected: the key's list is refiltered, nothing admitted
          have hstep : rateLimitStep s e =
              (updateStore (if e.cleanup then cleanupOldEntries (e.now - e.windowMs) s else s)
                  e.key (A.filter (fun u => decide (e.now - W < u))),
                { success := false, limit := e.max, remaining := 0,
                  retryAfter := (A.filter (fun u => decide (e.now - W < u))).min?.map
                    (fun oldest => ⌈((oldest + e.windowMs - e.now : ℚ)) / 1000⌉) }) := by
            simp only [rateLimitStep]
            rw [hreqs, if_pos hover]
          rw [hstep]
          rw [if_neg (by simp)]
          apply ih _ A (e.now - W) _ _
            (fun e2 he2 => hw e2 (List.mem_cons_of_mem e he2))
            (fun e2 he2 => hm e2 (List.mem_cons_of_mem e he2)) hrest hA
          · rw [pair_fst_apply, updateStore_apply, if_pos hk.symm]
          · intro e2 he2
            have := hhead e2 he2
            omega
        · -- admitted: `e.now` is recorded
          have hstep : rateLimitStep s e =
              (updateStore (if e.cleanup then cleanupOldEntries (e.now - e.windowMs) s else s)
                  e.key ((A.filter (fun u => decide (e.now - W < u))) ++ [e.now]),
                { success := true, limit := e.max,
                  remaining := e.max - ((A.filter (fun u => decide (e.now - W < u))).length + 1),
                  retryAfter := some 0 }) := by
            simp only [rateLimitStep]
            rw [hreqs, if_neg hover]
          rw [hstep]
          rw [if_pos (by simp [hk])]
          have hA2 : Admissible W m (A ++ [e.now]) := by
            refine Admissible.snoc A e.now hA ?_
            omega
          have hgoal := ih (updateStore
              (if e.cleanup then cleanupOldEntries (e.now - e.windowMs) s else s) e.key
              ((A.filter (fun u => decide (e.now - W < u))) ++ [e.now]))
            (A ++ [e.now]) (e.now - W) ?_ ?_
            (fun e2 he2 => hw e2 (List.mem_cons_of_mem e he2))
            (fun e2 he2 => hm e2 (List.mem_cons_of_mem e he2)) hrest hA2
          · rw [← List.append_cons] at hgoal
            exact hgoal
          · rw [updateStore_apply, if_pos hk.symm]
            have hkeep : List.filter (fun u => decide (e.now - W < u)) [e.now] = [e.now] := by
              simp only [List.filter_cons, List.filter_nil, decide_eq_true_eq]
              rw [if_pos (by omega)]
            rw [List.filter_append, hkeep]
          · intro e2 he2
            have := hhead e2 he2
            omega
      · -- another key is checked: our key's record is untouched
        rw [if_neg (by simp [hk])]
        apply ih _ A c2 _ _
          (fun e2 he2 => hw e2 (List.mem_cons_of_mem e he2))
          (fun e2 he2 => hm e2 (List.mem_cons_of_mem e he2)) hrest hA
        · rw [rateLimitStep_fst_apply_ne s e k (fun h => hk h.symm)]
          exact hs1
        · intro e2 he2
          have := hhead e2 he2
          omega

theorem exists_lower_cutoff (events : List RLEvent) (W : Int) :
    ∃ c : Int, ∀ e ∈ events, c ≤ e.now - W := by
  induction events with
  | nil => exact ⟨0, by simp⟩
  | cons e rest ih =>
      obtain ⟨c, hc⟩ := ih
      refine ⟨min c (e.now - W), fun e2 he2 => ?_⟩
      rcases List.mem_cons.mp he2 with h | h
      · subst h
        exact min_le_right _ _
      · exact le_trans (min_le_left _ _) (hc e2 h)

/-- C3 (amended): provided every admission check in a trace uses one and
the same `windowMs = W > 0` — the original claim fails because checks with
a smaller `windowMs` for other keys can trigger `cleanupOldEntries`, which
refilters *every* key's history with the *current call's* cutoff, see the
counterexample — and key `k` always uses `maxRequests = m`, then under a
nondecreasing clock the limiter never returns `allowed = true` for `k` more
than `m` times within any trailing interval of length `W`. -/
theorem sliding_window_never_exceeds (events : List RLEvent) (k : String)
    (W : Int) (m : ℕ) (hW : 0 < W)
    (hwin : ∀ e ∈ events, e.windowMs = W)
    (hmax : ∀ e ∈ events, e.key = k → e.max = m)
    (hmono : List.Pairwise (fun e1 e2 => e1.now ≤ e2.now) events)
    (T : Int) :
    countAllowedInWindow (runRateLimit emptyStore events).2 k W T ≤ m := by
  obtain ⟨c, hc⟩ := exists_lower_cutoff events W
  have hadm := runRateLimit_admissible k W m hW events emptyStore [] c rfl
    hc hwin hmax hmono Admissible.nil
  rw [List.nil_append] at hadm
  exact admissible_window_bound W m _ hadm T

/-- Witness for the amended sliding-window bound on a concrete trace. -/
theorem sliding_window_never_exceeds_witness :
    countAllowedInWindow (runRateLimit emptyStore
        [{ key := "a", windowMs := 10, max := 1, now := 0, cleanup := false },
         { key := "a", windowMs := 10, max := 1, now := 3, cleanup := true }]).2
      "a" 10 6 ≤ 1 :=
  sliding_window_never_exceeds
    [{ key := "a", windowMs := 10, max := 1, now := 0, cleanup := false },
     { key := "a", windowMs := 10, max := 1, now := 3, cleanup := true }]
    "a" 10 1 (by norm_num) (by decide) (by decide) (by decide) 6

/-- C4: with the `/api/v1/analyze` tier of `rateLimitAdvanced`
(`windowMs = 900000`, `max = 5`), five checks of a fresh key within one
window are all allowed with `remaining` 4, 3, 2, 1, 0 in order, and a sixth
check within the same window is refused with `retryAfter > 0`. -/
theorem analyze_tier_five_then_reject (k : String) (t1 t2 t3 t4 t5 t6 : Int)
    (h12 : t1 ≤ t2) (h23 : t2 ≤ t3) (h34 : t3 ≤ t4) (h45 : t4 ≤ t5) (h56 : t5 ≤ t6)
    (hspan : t6 - t1 < 900000) :
    rateLimitAdvancedConfig "/api/v1/analyze" = (900000, 5) ∧
    ∃ r : Int,
      ((runRateLimit emptyStore
          [{ key := k, windowMs := 900000, max := 5, now := t1, cleanup := false },
           { key := k, windowMs := 900000, max := 5, now := t2, cleanup := false },
           { key := k, windowMs := 900000, max := 5, now := t3, cleanup := false },
           { key := k, windowMs := 900000, max := 5, now := t4, cleanup := false },
           { key := k, windowMs := 900000, max := 5, now := t5, cleanup := false },
           { key := k, windowMs := 900000, max := 5, now := t6, cleanup := false }]).2.map
        (fun p => (p.2.success, p.2.remaining, p.2.retryAfter))) =
      [(true, 4, some 0), (true, 3, some 0), (true, 2, some 0),
       (true, 1, some 0), (true, 0, some 0), (false, 0, some r)] ∧ 0 < r := by
  refine ⟨rfl, ?_⟩
  have step : ∀ (s : RLStore) (L : List Int) (ti : Int), s k = L →
      (∀ t ∈ L, ti - 900000 < t) → L.length < 5 →
      (rateLimitStep s { key := k, windowMs := 900000, max := 5, now := ti, cleanup := false }).2 =
        { success := true, limit := 5, remaining := 5 - (L.length + 1), retryAfter := some 0 } ∧
      (rateLimitStep s { key := k, windowMs := 900000, max := 5, now := ti, cleanup := false }).1 k =
        L ++ [ti] := by
    intro s L ti hs hin hlen
    have hf : (s k).filter (fun t => decide (ti - 900000 < t)) = L := by
      rw [hs]
      exact List.filter_eq_self.mpr (fun a ha => by simpa using hin a ha)
    constructor
    · simp only [rateLimitStep, Bool.false_eq_true, if_false]
      rw [hf, if_neg (by omega)]
    · simp only [rateLimitStep, Bool.false_eq_true, if_false]
      rw [hf, if_neg (by omega), pair_fst_apply, updateStore_apply, if_pos rfl]
  have stepR : ∀ (s : RLStore) (L : List Int) (ti : Int), s k = L →
      (∀ t ∈ L, ti - 900000 < t) → 5 ≤ L.length →
      (rateLimitStep s { key := k, windowMs := 900000, max := 5, now := ti, cleanup := false }).2 =
        { success := false, limit := 5, remaining := 0,
          retryAfter := L.min?.map (fun oldest => ⌈((oldest + 900000 - ti : ℚ)) / 1000⌉) } := by
    intro s L ti hs hin hlen
    have hf : (s k).filter (fun t => decide (ti - 900000 < t)) = L := by
      rw [hs]
      exact List.filter_eq_self.mpr (fun a ha => by simpa using hin a ha)
    simp only [rateLimitStep, Bool.false_eq_true, if_false]
    rw [hf, if_pos (by omega)]
    simp
  obtain ⟨d1, hs1⟩ := step emptyStore [] t1 rfl (by simp) (by simp)
  obtain ⟨d2, hs2⟩ := step _ [t1] t2 hs1
    (by intro t ht; simp at ht; omega) (by simp)
  obtain ⟨d3, hs3⟩ := step _ [t1, t2] t3 hs2
    (by intro t ht; simp at ht; rcases ht with h | h <;> omega) (by simp)
  obtain ⟨d4, hs4⟩ := step _ [t1, t2, t3] t4 hs3
    (by intro t ht; simp at ht; rcases ht with h | h | h <;> omega) (by simp)
  obtain ⟨d5, hs5⟩ := step _ [t1, t2, t3, t4] t5 hs4
    (by intro t ht; simp at ht; rcases ht with h | h | h | h <;> omega) (by simp)
  have d6 := stepR _ [t1, t2, t3, t4, t5] t6 hs5
    (by intro t ht; simp at ht; rcases ht with h | h | h | h | h <;> omega) (by simp)
  have hmin : ([t1, t2, t3, t4, t5] : List Int).min? = some t1 := by
    have hcol : min (min (min (min t1 t2) t3) t4) t5 = t1 := by omega
    simp [List.min?, List.foldl, hcol]
  rw [hmin] at d6
  refine ⟨⌈((t1 + 900000 - t6 : ℚ)) / 1000⌉, ?_, ?_⟩
  · rw [runRateLimit_cons, runRateLimit_cons, runRateLimit_cons, runRateLimit_cons,
      runRateLimit_cons, runRateLimit_cons]
    rw [show (runRateLimit _ ([] : List RLEvent)).2 = [] from rfl]
    simp only [List.map_cons, List.map_nil]
    rw [d1, d2, d3, d4, d5, d6]
    simp
  · have hq : (0 : ℚ) < ((t1 + 900000 - t6 : ℚ)) / 1000 := by
      apply div_pos
      · have hi : (0 : Int) < t1 + 900000 - t6 := by omega
        exact_mod_cast hi
      · norm_num
    exact Int.ceil_pos.mpr hq

/-- Witness for the analyze-tier admission scenario at concrete instants. -/
theorem analyze_tier_five_then_reject_witness :
    rateLimitAdvancedConfig "/api/v1/analyze" = (900000, 5) ∧
    ∃ r : Int,
      ((runRateLimit emptyStore
          [{ key := "u", windowMs := 900000, max := 5, now := 0, cleanup := false },
           { key := "u", windowMs := 900000, max := 5, now := 1, cleanup := false },
           { key := "u", windowMs := 900000, max := 5, now := 2, cleanup := false },
           { key := "u", windowMs := 900000, max := 5, now := 3, cleanup := false },
           { key := "u", windowMs := 900000, max := 5, now := 4, cleanup := false },
           { key := "u", windowMs := 900000, max := 5, now := 5, cleanup := false }]).2.map
        (fun p => (p.2.success, p.2.remaining, p.2.retryAfter))) =
      [(true, 4, some 0), (true, 3, some 0), (true, 2, some 0),
       (true, 1, some 0), (true, 0, some 0), (false, 0, some r)] ∧ 0 < r :=
  analyze_tier_five_then_reject "u" 0 1 2 3 4 5 (by norm_num) (by norm_num)
    (by norm_num) (by norm_num) (by norm_num) (by norm_num)

/-! ## JSON extraction and error wrapping (`analyzeDocument`, llmService.js),
and the analyze handler's status mapping (api/v1/analyze.js)

The external model call is the opaque collaborator
`complete : Except JsError (List Char)`; `JSON.parse` is the platform
collaborator `jsonParse : List Char → Option ProvisionalResult` (`none` =
exception).  The braces `\x7b`/`\x7d` in character literals are `{`/`}`. -/

/-- A JavaScript `Error` as the handler observes it: `message`, the
provider SDK's `type` tag when present, and `code` (which no error thrown
by the service ever carries). -/
structure JsError where
  type : Option String
  message : List Char
  code : Option String
deriving Repr, DecidableEq

/-- Index of the first character satisfying `p`. -/
def findFirstIdx (p : Char → Bool) : List Char → Option ℕ
  | [] => none
  | c :: cs => if p c then some 0 else (findFirstIdx p cs).map (· + 1)

/-- Index of the last character satisfying `p`. -/
def findLastIdx (p : Char → Bool) : List Char → Option ℕ
  | [] => none
  | c :: cs =>
      match findLastIdx p cs with
      | some j => some (j + 1)
      | none => if p c then some 0 else none

/-- `content.match(/\x7b[\s\S]*\x7d/)` with fallback to the whole reply:
the regex matches iff the first `\x7b` precedes the last `\x7d`, and the
greedy match then spans exactly that range. -/
def extractJson (content : List Char) : List Char :=
  match findFirstIdx (fun c => c = '\x7b') content,
      findLastIdx (fun c => c = '\x7d') content with
  | some i, some j => if i < j then (content.take (j + 1)).drop i else content
  | _, _ => content


theorem findFirstIdx_cons (p : Char → Bool) (a : Char) (l : List Char) :
    findFirstIdx p (a :: l) =
      if p a then some 0 else (findFirstIdx p l).map (· + 1) := rfl

theorem findLastIdx_cons_some (p : Char → Bool) (a : Char) (l : List Char) (j : ℕ)
    (h : findLastIdx p l = some j) : findLastIdx p (a :: l) = some (j + 1) := by
  simp [findLastIdx, h]

theorem findLastIdx_cons_none (p : Char → Bool) (a : Char) (l : List Char)
    (h : findLastIdx p l = none) :
    findLastIdx p (a :: l) = if p a then some 0 else none := by
  simp [findLastIdx, h]

theorem findFirstIdx_mem (p : Char → Bool) :
    ∀ (l : List Char) (i : ℕ), findFirstIdx p l = some i →
      ∃ c, l[i]? = some c ∧ p c = true
  | [], i => by intro h; simp [findFirstIdx] at h
  | a :: l, i => by
      rw [findFirstIdx_cons]
      by_cases hpa : p a = true
      · rw [if_pos hpa]
        intro h
        obtain rfl : (0 : ℕ) = i := Option.some.inj h
        exact ⟨a, by simp, hpa⟩
      · rw [if_neg hpa]
        intro h
        cases hrec : findFirstIdx p l with
        | none => rw [hrec] at h; simp at h
        | some i2 =>
            rw [hrec] at h
            obtain rfl : i2 + 1 = i := by simpa using h
            obtain ⟨c2, hc2, hpc2⟩ := findFirstIdx_mem p l i2 hrec
            exact ⟨c2, by simpa using hc2, hpc2⟩

theorem findFirstIdx_min (p : Char → Bool) :
    ∀ (l : List Char) (i : ℕ), findFirstIdx p l = some i →
      ∀ (j : ℕ) (c : Char), j < i → l[j]? = some c → p c = false
  | [], i => by intro h; simp [findFirstIdx] at h
  | a :: l, i => by
      rw [findFirstIdx_cons]
      by_cases hpa : p a = true
      · rw [if_pos hpa]
        intro h
        obtain rfl : (0 : ℕ) = i := Option.some.inj h
        intro j c hj
        omega
      · rw [if_neg hpa]
        intro h
        cases hrec : findFirstIdx p l with
        | none => rw [hrec] at h; simp at h
        | some i2 =>
            rw [hrec] at h
            obtain rfl : i2 + 1 = i := by simpa using h
            intro j c hj hg
            cases j with
            | zero =>
                simp only [List.getElem?_cons_zero] at hg
                obtain rfl : a = c := Option.some.inj hg
                simpa using hpa
            | succ j2 =>
                simp only [List.getElem?_cons_succ] at hg
                exact findFirstIdx_min p l i2 hrec j2 c (by omega) hg

theorem findFirstIdx_exists (p : Char → Bool) :
    ∀ (l : List Char) (i : ℕ) (c : Char), l[i]? = some c → p c = true →
      ∃ i0, findFirstIdx p l = some i0
  | [], i, c => by intro h; simp at h
  | a :: l, i, c => by
      intro hg hp
      rw [findFirstIdx_cons]
      by_cases hpa : p a = true
      · exact ⟨0, by rw [if_pos hpa]⟩
      · rw [if_neg hpa]
        cases i with
        | zero =>
            simp only [List.getElem?_cons_zero] at hg
            obtain rfl : a = c := Option.some.inj hg
            exact absurd hp hpa
        | succ i2 =>
            simp only [List.getElem?_cons_succ] at hg
            obtain ⟨i0, hi0⟩ := findFirstIdx_exists p l i2 c hg hp
            exact ⟨i0 + 1, by rw [hi0]; rfl⟩

theorem findLastIdx_none_all (p : Char → Bool) :
    ∀ (l : List Char), findLastIdx p l = none →
      ∀ (j : ℕ) (c : Char), l[j]? = some c → p c = false
  | [] => by intro _ j c hg; simp at hg
  | a :: l => by
      intro h
      cases hrec : findLastIdx p l with
      | some j2 =>
          rw [findLastIdx_cons_some p a l j2 hrec] at h
          simp at h
      | none =>
          rw [findLastIdx_cons_none p a l hrec] at h
          by_cases hpa : p a = true
          · rw [if_pos hpa] at h
            simp at h
          · intro j c hg
            cases j with
            | zero =>
                simp only [List.getElem?_cons_zero] at hg
                obtain rfl : a = c := Option.some.inj hg
                simpa using hpa
            | succ j2 =>
                simp only [List.getElem?_cons_succ] at hg
                exact findLastIdx_none_all p l hrec j2 c hg

theorem findLastIdx_mem (p : Char → Bool) :
    ∀ (l : List Char) (j : ℕ), findLastIdx p l = some j →
      ∃ c, l[j]? = some c ∧ p c = true
  | [], j => by intro h; simp [findLastIdx] at h
  | a :: l, j => by
      intro h
      cases hrec : findLastIdx p l with
      | some j2 =>
          rw [findLastIdx_cons_some p a l j2 hrec] at h
          obtain rfl : j2 + 1 = j := Option.some.inj h
          obtain ⟨c, hc, hpc⟩ := findLastIdx_mem p l j2 hrec
          exact ⟨c, by simpa using hc, hpc⟩
      | none =>
          rw [findLastIdx_cons_none p a l hrec] at h
          by_cases hpa : p a = true
          · rw [if_pos hpa] at h
            obtain rfl : (0 : ℕ) = j := Option.some.inj h
            exact ⟨a, by simp, hpa⟩
          · rw [if_neg hpa] at h
            simp at h

theorem findLastIdx_max (p : Char → Bool) :
    ∀ (l : List Char) (j : ℕ), findLastIdx p l = some j →
      ∀ (j2 : ℕ) (c : Char), j < j2 → l[j2]? = some c → p c = false
  | [], j => by intro h; simp [findLastIdx] at h
  | a :: l, j => by
      intro h
      cases hrec : findLastIdx p l with
      | some jr =>
          rw [findLastIdx_cons_some p a l jr hrec] at h
          obtain rfl : jr + 1 = j := Option.some.inj h
          intro j2 c hj2 hg
          cases j2 with
          | zero => omega
          | succ j3 =>
              simp only [List.getElem?_cons_succ] at hg
              exact findLastIdx_max p l jr hrec j3 c (by omega) hg
      | none =>
          rw [findLastIdx_cons_none p a l hrec] at h
          by_cases hpa : p a = true
          · rw [if_pos hpa] at h
            obtain rfl : (0 : ℕ) = j := Option.some.inj h
            intro j2 c hj2 hg
            cases j2 with
            | zero => omega
            | succ j3 =>
                simp only [List.getElem?_cons_succ] at hg
                exact findLastIdx_none_all p l hrec j3 c hg
          · rw [if_neg hpa] at h
            simp at h

theorem findLastIdx_exists (p : Char → Bool) :
    ∀ (l : List Char) (j : ℕ) (c : Char), l[j]? = some c → p c = true →
      ∃ j0, findLastIdx p l = some j0
  | [], j, c => by intro h; simp at h
  | a :: l, j, c => by
      intro hg hp
      cases hrec : findLastIdx p l with
      | some jr => exact ⟨jr + 1, findLastIdx_cons_some p a l jr hrec⟩
      | none =>
          rw [findLastIdx_cons_none p a l hrec]
          cases j with
          | zero =>
              simp only [List.getElem?_cons_zero] at hg
              obtain rfl : a = c := Option.some.inj hg
              exact ⟨0, by rw [if_pos hp]⟩
          | succ j2 =>
              simp only [List.getElem?_cons_succ] at hg
              have := findLastIdx_none_all p l hrec j2 c hg
              rw [this] at hp
              exact absurd hp (by simp)

theorem findFirstIdx_of_all_false (p : Char → Bool) :
    ∀ (l : List Char), (∀ c ∈ l, p c = false) → findFirstIdx p l = none
  | [] => fun _ => rfl
  | a :: l => by
      intro h
      rw [findFirstIdx_cons]
      rw [if_neg (by simp [h a (List.mem_cons_self a l)])]
      rw [findFirstIdx_of_all_false p l (fun c hc => h c (List.mem_cons_of_mem a hc))]
      rfl

/-- JavaScript `String.prototype.includes`. -/
def containsSubstr (s sub : List Char) : Bool :=
  s.tails.any (fun t => sub.isPrefixOf t)

/-- `new Error(message)`: a fresh error with no provider `type` tag and no
`code` property. -/
def plainError (msg : String) : JsError :=
  { type := none, message := msg.toList, code := none }

/-- The failure site of `analyzeDocument` (which `throw` fired), tracked so
that failure categories can be stated; the JsError payload is exactly what
the source rethrows. -/
inductive FailSite
  | sizeCheck
  | upstream
  | parseJson
deriving Repr, DecidableEq

/-- The `catch` block of `analyzeDocument`: translate provider error tags
and timeout messages, otherwise rethrow with an `Analysis failed: ` prefix.
Every branch constructs a fresh `Error`, so `type` and `code` of the
escaping error are always absent. -/
def catchWrap (e : JsError) : JsError :=
  if e.type = some "rate_limit_error" then
    plainError "Rate limit exceeded. Please wait and try again."
  else if e.type = some "authentication_error" then
    plainError "Invalid API key. Please check your Anthropic API key."
  else if e.type = some "overloaded_error" then
    plainError "Claude is overloaded. Please try again in a moment."
  else if containsSubstr e.message ("timeout".toList) then
    plainError "Analysis timeout. Document may be too complex."
  else
    { type := none, message := ("Analysis failed: ".toList ++ e.message), code := none }

/-- `analyzeDocument(documentText)` from llmService.js: size check before
the upstream call, upstream call, JSON extraction and parse, then result
validation; every failure is rethrown through `catchWrap`. -/
def analyzeDocument (complete : Except JsError (List Char))
    (jsonParse : List Char → Option ProvisionalResult) (idGen : ℕ → String)
    (documentText : List Char) : Except (FailSite × JsError) ProcessedResult :=
  if documentText.length > 200000 then
    .error (.sizeCheck,
      catchWrap (plainError "Document too large. Maximum size is 200,000 characters."))
  else
    match complete with
    | .error e => .error (.upstream, catchWrap e)
    | .ok content =>
        match jsonParse (extractJson content) with
        | none => .error (.parseJson, catchWrap (plainError "Invalid JSON response from Claude"))
        | some analysisResult =>
            .ok (validateAndProcessResults idGen analysisResult documentText)

/-- The status mapping of the analyze handler's catch block
(api/v1/analyze.js): drive the HTTP status from `error.code`. -/
def handlerStatus (e : JsError) : ℕ :=
  if e.code = some "RATE_LIMIT_EXCEEDED" then 429
  else if e.code = some "INVALID_API_KEY" then 401
  else if e.code = some "DOCUMENT_TOO_LARGE" then 413
  else 500

/-- C9: `analyzeDocument` fails at the size check exactly when the document
exceeds 200,000 characters, and in that case the outcome does not depend on
the upstream collaborator or the JSON parser at all — the size check runs
before the model is invoked. -/
theorem size_check_exact_and_first :
    (∀ (c1 c2 : Except JsError (List Char))
        (jp1 jp2 : List Char → Option ProvisionalResult) (g1 g2 : ℕ → String)
        (doc : List Char), doc.length > 200000 →
        analyzeDocument c1 jp1 g1 doc = analyzeDocument c2 jp2 g2 doc)
    ∧ (∀ (c : Except JsError (List Char)) (jp : List Char → Option ProvisionalResult)
        (g : ℕ → String) (doc : List Char),
        (∃ e, analyzeDocument c jp g doc = .error (.sizeCheck, e)) ↔ doc.length > 200000) := by
  constructor
  · intro c1 c2 jp1 jp2 g1 g2 doc h
    unfold analyzeDocument
    rw [if_pos h, if_pos h]
  · intro c jp g doc
    constructor
    · rintro ⟨e, he⟩
      by_contra hlen
      unfold analyzeDocument at he
      rw [if_neg hlen] at he
      split at he
      · simp at he
      · split at he
        · simp at he
        · simp at he
    · intro h
      refine ⟨catchWrap (plainError "Document too large. Maximum size is 200,000 characters."), ?_⟩
      unfold analyzeDocument
      rw [if_pos h]

/-- Witness for the size check at a concrete oversized document. -/
theorem size_check_exact_and_first_witness :
    analyzeDocument (Except.ok ("x".toList)) (fun _ => none) (fun _ => "id")
        (List.replicate 200001 'a') =
      analyzeDocument (Except.error (plainError "boom"))
        (fun _ => some { summary := none, issues := none }) (fun _ => "other")
        (List.replicate 200001 'a') ∧
    (∃ e, analyzeDocument (Except.ok ("x".toList)) (fun _ => none) (fun _ => "id")
        (List.replicate 200001 'a') = .error (.sizeCheck, e)) := by
  constructor
  · exact size_check_exact_and_first.1 _ _ _ _ _ _ _
      (by rw [List.length_replicate]; norm_num)
  · exact (size_check_exact_and_first.2 _ _ _ _).mpr
      (by rw [List.length_replicate]; norm_num)

/-- C5: the handler maps `error.code` values `RATE_LIMIT_EXCEEDED` /
`INVALID_API_KEY` / `DOCUMENT_TOO_LARGE` to 429 / 401 / 413, but the errors
thrown by `analyzeDocument` never carry a `code` — an oversized document
therefore produces HTTP 500, not the 413 the mapping (and the spec)
intend. -/
theorem doc_too_large_maps_to_500 :
    analyzeDocument (Except.ok ("x".toList)) (fun _ => none) (fun _ => "id")
        (List.replicate 200001 'a') =
      .error (.sizeCheck,
        plainError "Analysis failed: Document too large. Maximum size is 200,000 characters.")
    ∧ handlerStatus
        (plainError "Analysis failed: Document too large. Maximum size is 200,000 characters.") = 500
    ∧ (500 : ℕ) ≠ 413 := by
  refine ⟨?_, rfl, by norm_num⟩
  unfold analyzeDocument
  rw [if_pos (by rw [List.length_replicate]; norm_num)]
  rfl

theorem findLastIdx_of_all_false (p : Char → Bool) :
    ∀ (l : List Char), (∀ c ∈ l, p c = false) → findLastIdx p l = none
  | [] => fun _ => rfl
  | a :: l => by
      intro h
      rw [findLastIdx_cons_none p a l
        (findLastIdx_of_all_false p l (fun c hc => h c (List.mem_cons_of_mem a hc)))]
      rw [if_neg (by simp [h a (List.mem_cons_self a l)])]

theorem analyzeDocument_ok (jsonParse : List Char → Option ProvisionalResult)
    (idGen : ℕ → String) (doc content : List Char) (hlen : ¬ doc.length > 200000) :
    analyzeDocument (.ok content) jsonParse idGen doc =
      match jsonParse (extractJson content) with
      | none => .error (.parseJson, catchWrap (plainError "Invalid JSON response from Claude"))
      | some r => .ok (validateAndProcessResults idGen r doc) := by
  unfold analyzeDocument
  rw [if_neg hlen]

/-- C6: the parser selects the substring from the first `{` through the
last `}` of the raw reply (greedy outer-brace match, not balanced); when no
braces occur the whole reply is selected; and whenever the selected text
fails to parse as JSON, `analyzeDocument` fails with the wrapped
malformed-response error — it never silently returns an empty result.
(`'\x7b'`/`'\x7d'` are the brace characters.) -/
theorem json_extraction_greedy_and_malformed :
    (∀ (content : List Char) (i j : ℕ), i < j →
      content[i]? = some '\x7b' → content[j]? = some '\x7d' →
      ∃ i0 j0 : ℕ, i0 ≤ i ∧ j ≤ j0 ∧
        content[i0]? = some '\x7b' ∧ content[j0]? = some '\x7d' ∧
        (∀ (i2 : ℕ) (c : Char), i2 < i0 → content[i2]? = some c → c ≠ '\x7b') ∧
        (∀ (j2 : ℕ) (c : Char), j0 < j2 → content[j2]? = some c → c ≠ '\x7d') ∧
        extractJson content = (content.take (j0 + 1)).drop i0)
    ∧ (∀ content : List Char, (∀ c ∈ content, c ≠ '\x7b' ∧ c ≠ '\x7d') →
        extractJson content = content)
    ∧ (∀ (complete : Except JsError (List Char))
        (jsonParse : List Char → Option ProvisionalResult) (idGen : ℕ → String)
        (doc content : List Char),
        ¬ doc.length > 200000 → complete = .ok content →
        jsonParse (extractJson content) = none →
        analyzeDocument complete jsonParse idGen doc =
          .error (.parseJson, plainError "Analysis failed: Invalid JSON response from Claude")) := by
  refine ⟨?_, ?_, ?_⟩
  · intro content i j hij hi hj
    obtain ⟨i0, hfi⟩ :=
      findFirstIdx_exists (fun c => c = '\x7b') content i '\x7b' hi (by decide)
    obtain ⟨j0, hfj⟩ :=
      findLastIdx_exists (fun c => c = '\x7d') content j '\x7d' hj (by decide)
    obtain ⟨ci, hci, hpci⟩ := findFirstIdx_mem _ content i0 hfi
    have hcieq : ci = '\x7b' := by simpa using hpci
    subst hcieq
    obtain ⟨cj, hcj, hpcj⟩ := findLastIdx_mem _ content j0 hfj
    have hcjeq : cj = '\x7d' := by simpa using hpcj
    subst hcjeq
    have hii : i0 ≤ i := by
      by_contra hlt
      have := findFirstIdx_min _ content i0 hfi i '\x7b' (by omega) hi
      simp at this
    have hjj : j ≤ j0 := by
      by_contra hlt
      have := findLastIdx_max _ content j0 hfj j '\x7d' (by omega) hj
      simp at this
    refine ⟨i0, j0, hii, hjj, hci, hcj, ?_, ?_, ?_⟩
    · intro i2 c h2 hg hceq
      have := findFirstIdx_min _ content i0 hfi i2 c h2 hg
      rw [hceq] at this
      simp at this
    · intro j2 c h2 hg hceq
      have := findLastIdx_max _ content j0 hfj j2 c h2 hg
      rw [hceq] at this
      simp at this
    · unfold extractJson
      rw [hfi, hfj]
      show (if i0 < j0 then List.drop i0 (List.take (j0 + 1) content) else content) =
        List.drop i0 (List.take (j0 + 1) content)
      rw [if_pos (by omega)]
  · intro content hnb
    unfold extractJson
    rw [findFirstIdx_of_all_false _ _ (fun c hc => by simp [(hnb c hc).1]),
      findLastIdx_of_all_false _ _ (fun c hc => by simp [(hnb c hc).2])]
  · intro complete jsonParse idGen doc content hlen hok hpar
    subst hok
    rw [analyzeDocument_ok jsonParse idGen doc content hlen, hpar]
    rfl

/-- Witness for the JSON extraction properties at concrete replies. -/
theorem json_extraction_greedy_and_malformed_witness :
    (∃ i0 j0 : ℕ, i0 ≤ 1 ∧ 3 ≤ j0 ∧
      ("x\x7ba\x7dy\x7bb\x7dz".toList)[i0]? = some '\x7b' ∧
      ("x\x7ba\x7dy\x7bb\x7dz".toList)[j0]? = some '\x7d' ∧
      (∀ (i2 : ℕ) (c : Char), i2 < i0 →
        ("x\x7ba\x7dy\x7bb\x7dz".toList)[i2]? = some c → c ≠ '\x7b') ∧
      (∀ (j2 : ℕ) (c : Char), j0 < j2 →
        ("x\x7ba\x7dy\x7bb\x7dz".toList)[j2]? = some c → c ≠ '\x7d') ∧
      extractJson ("x\x7ba\x7dy\x7bb\x7dz".toList) =
        (("x\x7ba\x7dy\x7bb\x7dz".toList).take (j0 + 1)).drop i0)
    ∧ extractJson ("no braces here".toList) = "no braces here".toList
    ∧ analyzeDocument (Except.ok ("truncated \x7b\"a\": 1".toList)) (fun _ => none)
        (fun _ => "id") ("doc".toList) =
      .error (.parseJson, plainError "Analysis failed: Invalid JSON response from Claude") :=
  ⟨json_extraction_greedy_and_malformed.1 ("x\x7ba\x7dy\x7bb\x7dz".toList) 1 3
      (by norm_num) (by decide) (by decide),
   json_extraction_greedy_and_malformed.2.1 ("no braces here".toList) (by decide),
   json_extraction_greedy_and_malformed.2.2 (Except.ok ("truncated \x7b\"a\": 1".toList))
      (fun _ => none) (fun _ => "id") ("doc".toList) ("truncated \x7b\"a\": 1".toList)
      (by decide) rfl rfl⟩

/-! ## Request validation (`validateRequest`, lib/utils.js) -/

structure DocStructure where
  fullText : Option String
  paragraphs : Option (List String)
deriving Repr, DecidableEq

structure ReqBody where
  documentText : Option String
  documentStructure : Option DocStructure
  analysisMode : Option String
  userId : Option String
deriving Repr, DecidableEq

/-- JavaScript truthiness of an optional string: absent and `""` are falsy. -/
def truthyStr : Option String → Bool
  | none => false
  | some s => decide (s ≠ "")

/-- `validateRequest(body)` from lib/utils.js.  The `else if` chain
validates exactly one document representation: the plain text when truthy,
otherwise the structure when present. -/
def validateRequest (body : Option ReqBody) : Bool × List String :=
  match body with
  | none => (false, ["Request body is required"])
  | some b =>
      let docErrors : List String :=
        if truthyStr b.documentText = false ∧ b.documentStructure = none then
          ["Either documentText or documentStructure is required"]
        else if truthyStr b.documentText then
          match b.documentText with
          | some s =>
              if s.length < 100 then ["documentText is too short (minimum 100 characters)"]
              else if s.length > 200000 then
                ["documentText is too long (maximum 200,000 characters)"]
              else []
          | none => []
        else
          match b.documentStructure with
          | some ds =>
              if truthyStr ds.fullText = false then ["documentStructure.fullText is required"]
              else if ds.paragraphs = none then
                ["documentStructure.paragraphs must be an array"]
              else
                match ds.fullText with
                | some t =>
                    if t.length < 100 then
                      ["documentStructure.fullText is too short (minimum 100 characters)"]
                    else if t.length > 200000 then
                      ["documentStructure.fullText is too long (maximum 200,000 characters)"]
                    else []
                | none => []
          | none => []
      let modeErrors : List String :=
        if truthyStr b.analysisMode ∧ b.analysisMode ≠ some "llm" ∧
            b.analysisMode ≠ some "rules" ∧ b.analysisMode ≠ some "hybrid" then
          ["analysisMode must be one of: llm, rules, hybrid"]
        else []
      let userErrors : List String :=
        match b.userId with
        | some u => if u ≠ "" ∧ u.length > 100 then
            ["userId must be a string with maximum 100 characters"]
          else []
        | none => []
      let errors := docErrors ++ modeErrors ++ userErrors
      (errors.isEmpty, errors)

set_option maxRecDepth 4000 in
/-- C10 counterexample: a request carrying a valid 150-character
`documentText` *and* a `documentStructure` whose `fullText` is only 5
characters long is classified valid — the `else if` chain never validates
the structure once the plain text is truthy, so a short
`documentStructure.fullText` does not make the request invalid. -/
theorem short_structure_text_accepted :
    validateRequest (some
      { documentText := some (String.mk (List.replicate 150 'a')),
        documentStructure := some { fullText := some "short", paragraphs := some [] },
        analysisMode := none,
        userId := none }) = (true, [])
    ∧ ("short" : String).length < 100 := by
  constructor
  · rfl
  · decide

/-- C10 (amended): `validateRequest` checks exactly one representation.
When `documentText` is truthy (a non-empty string) only it is validated: if
it is shorter than 100 characters the request is classified invalid.  When
`documentText` is not truthy and `documentStructure` is present, the
structure is validated: if its `fullText` is a string shorter than 100
characters the request is classified invalid.  A request whose truthy
`documentText` passes is never rejected for its `documentStructure`, and an
empty-string `documentText` falls through to the structure path. -/
theorem request_min_length_per_path (b : ReqBody) :
    (∀ s : String, b.documentText = some s → s ≠ "" → s.length < 100 →
      (validateRequest (some b)).1 = false)
    ∧ (∀ (ds : DocStructure) (t : String), truthyStr b.documentText = false →
        b.documentStructure = some ds → ds.fullText = some t → t.length < 100 →
        (validateRequest (some b)).1 = false) := by
  constructor
  · intro s hs hne hlen
    have htr : truthyStr (some s) = true := by simp [truthyStr, hne]
    unfold validateRequest
    simp only [hs]
    rw [if_neg (by rw [htr]; simp)]
    rw [if_pos htr]
    rw [if_pos hlen]
    simp
  · intro ds t htr hds ht hlen
    unfold validateRequest
    simp only [hds]
    rw [if_neg (by simp)]
    rw [if_neg (by rw [htr]; simp)]
    by_cases hemp : t = ""
    · rw [if_pos (by rw [ht, hemp]; rfl)]
      simp
    · rw [if_neg (by rw [ht]; simp [truthyStr, hemp])]
      by_cases hpar : ds.paragraphs = none
      · rw [if_pos hpar]
        simp
      · rw [if_neg hpar]
        simp only [ht]
        rw [if_pos hlen]
        simp

/-- Witness for the per-path minimum-length validation. -/
theorem request_min_length_per_path_witness :
    (validateRequest (some
      { documentText := some "tiny", documentStructure := none,
        analysisMode := none, userId := none })).1 = false
    ∧ (validateRequest (some
      { documentText := none,
        documentStructure := some { fullText := some "small", paragraphs := some [] },
        analysisMode := none, userId := none })).1 = false := by
  constructor
  · exact (request_min_length_per_path
      { documentText := some "tiny", documentStructure := none,
        analysisMode := none, userId := none }).1 "tiny" rfl (by decide) (by decide)
  · exact (request_min_length_per_path
      { documentText := none,
        documentStructure := some { fullText := some "small", paragraphs := some [] },
        analysisMode := none, userId := none }).2
      { fullText := some "small", paragraphs := some [] } "small" rfl rfl rfl (by decide)
